import Mathlib

/-!
Shallow embedding of `src/kay/src/compact.rs` (the `Compact` relocation
protocol and the relocatable growable vector `CompactVec`).

Modelling conventions:
* A `CompactVec<T, A>` header is `{ ptr: TaggedRelativePointer<T>, len, cap }`
  where the buffer holds `cap` slots whose first `len` are live.  We model the
  live region as the list `data` (so `len = data.length`), the capacity as
  `cap`, and the handle as a tag bit plus the raw address it was last `set` to.
* Machine `usize` arithmetic never overflows in any reachable claim scenario
  (capacities double from 0), so sizes are `Nat`; raw addresses are `Int`
  (pointer `offset` takes an `isize`).
* `TaggedRelativePointer` and the allocator are external collaborator crates
  (not part of this repository); they are modelled from the spec's interface
  contract in §6: the handle stores a tag bit and an address, the allocator
  returns memory for `count` elements.  The address value an allocator picks
  is not observable by any claim, so it is modelled as `0`; the logical
  contents of the buffer the address points to are tracked in `data`.
-/

/-- Storage-state tag constant from the source: `const FREE : bool = true`. -/
def FREE : Bool := true

/-- Storage-state tag constant from the source: `const EMBEDDED : bool = false`. -/
def EMBEDDED : Bool := false

/-- Modelled from the spec (§6): the relative storage handle collaborator
`tagged_relative_pointer::TaggedRelativePointer<T>`, an external crate.  It
carries one tag bit (embedded/free) and points at a raw address; the relative
physical encoding is invisible at this level of abstraction. -/
structure TaggedRelativePointer where
  addr : Int
  tag : Bool
deriving DecidableEq, Repr

/-- Modelled from the spec (§6): `TaggedRelativePointer::null(tag)` constructs a
null handle carrying the given tag. -/
def TaggedRelativePointer.null (tag : Bool) : TaggedRelativePointer :=
  { addr := 0, tag := tag }

/-- Modelled from the spec (§6): `TaggedRelativePointer::default()`. Its fields
are immediately overwritten by `set` at every use site in the source. -/
def TaggedRelativePointer.defaultPtr : TaggedRelativePointer :=
  { addr := 0, tag := false }

/-- Modelled from the spec (§6): `ptr.set(p, tag)` repoints the handle at raw
address `p` with the given tag. -/
def TaggedRelativePointer.set (_self : TaggedRelativePointer) (p : Int) (tag : Bool) :
    TaggedRelativePointer :=
  { addr := p, tag := tag }

/-- Modelled from the spec (§6): `ptr.is_tagged()` reads back the tag bit. -/
def TaggedRelativePointer.is_tagged (self : TaggedRelativePointer) : Bool :=
  self.tag

/-- Modelled from the spec (§6): the allocator collaborator
(`allocators::DefaultHeap`, external crate).  `allocate::<T>(count)` returns
memory suitable for `count` contiguous elements; the address it picks is not
observable by any claim, so the model returns `0`. -/
def DefaultHeap.allocate (_count : Nat) : Int :=
  0

/-- `CompactVec<T, A>` from `compact.rs` lines 26-31: header
`{ ptr, len, cap }` plus a buffer of `cap` slots whose first `len` are live.
`data` models the live region (`len = data.length`). -/
structure CompactVec (T : Type) where
  ptr : TaggedRelativePointer
  data : List T
  cap : Nat
deriving DecidableEq, Repr

/-- `CompactVec::len` (lines 37-39). -/
def CompactVec.len {T : Type} (self : CompactVec T) : Nat :=
  self.data.length

/-- `CompactVec::new` (lines 41-48): embedded-null handle, `len = 0`,
`cap = 0`; no allocation occurs. -/
def CompactVec.new {T : Type} : CompactVec T :=
  { ptr := TaggedRelativePointer.null EMBEDDED, data := [], cap := 0 }

/-- `CompactVec::with_capacity` (lines 50-60): `len = 0`, `cap = cap`, handle
set to a fresh allocation for `cap` elements, tagged `FREE`. -/
def CompactVec.with_capacity {T : Type} (cap : Nat) : CompactVec T :=
  let vec : CompactVec T :=
    { ptr := TaggedRelativePointer.defaultPtr, data := [], cap := cap }
  { vec with ptr := vec.ptr.set (DefaultHeap.allocate cap) FREE }

/-- `CompactVec::from_backing` (lines 62-72): wraps caller-owned memory at
`p` as `EMBEDDED` storage; the caller guarantees the first `len` slots hold
valid values (given here as `data`) and that there is room for `cap`. -/
def CompactVec.from_backing {T : Type} (p : Int) (data : List T) (cap : Nat) :
    CompactVec T :=
  let vec : CompactVec T := { ptr := TaggedRelativePointer.defaultPtr, data := data, cap := cap }
  { vec with ptr := vec.ptr.set p EMBEDDED }

/-- `CompactVec::double_buf` (lines 83-97): `new_cap` is `1` if `cap == 0`
else `2 * cap`; a new buffer of `new_cap` slots is obtained from a temporary
`Vec::<T>::with_capacity(new_cap)`, the first `len` elements are copied over
with `copy_nonoverlapping`, the old storage is dropped only if `FREE`
(`maybe_drop`), and the handle is repointed to the new buffer tagged `FREE`.
Caveat: this pure model tracks the header fields and the logical contents of
the live region as the intended growth algorithm (spec §4.2) produces them.
In the source, however, the temporary `Vec` still owns the new buffer and
there is no `mem::forget`, so the buffer is deallocated when `double_buf`
returns, leaving the repointed handle dangling; see
`CompactVec.double_buf_heap` below, which instruments the same lines with
allocation-liveness tracking and exhibits that defect. -/
def CompactVec.double_buf {T : Type} (self : CompactVec T) : CompactVec T :=
  let new_cap := if self.cap = 0 then 1 else self.cap * 2
  { ptr := self.ptr.set (DefaultHeap.allocate new_cap) FREE,
    data := self.data,
    cap := new_cap }

/-- `CompactVec::push` (lines 99-109): grow via `double_buf` when
`len == cap`, then write `value` at slot `len` and increment `len` — the live
region gains `value` at its end. -/
def CompactVec.push {T : Type} (self : CompactVec T) (value : T) : CompactVec T :=
  let grown := if self.len = self.cap then self.double_buf else self
  { grown with data := grown.data ++ [value] }

/-- `CompactVec::pop` (lines 111-120): `None` if `len == 0`, otherwise
decrement `len` and read out the element at the new `len` (the previous last
element); the first `len - 1` slots are untouched. -/
def CompactVec.pop {T : Type} (self : CompactVec T) : Option T × CompactVec T :=
  if self.len = 0 then
    (none, self)
  else
    (self.data[self.len - 1]?, { self with data := self.data.take (self.len - 1) })

/-- `CompactVec::insert` (lines 122-136): grow via `double_buf` when
`len == cap`; then `ptr::copy(p, p.offset(1), len - index)` shifts the live
elements at positions `[index, len)` one slot right (overlap-safe move), the
value is written at `index`, and `len` is incremented.  For `index <= len`
(the documented caller obligation) the live region becomes the original
sequence with `value` spliced in at `index`. -/
def CompactVec.insert {T : Type} (self : CompactVec T) (index : Nat) (value : T) :
    CompactVec T :=
  let grown := if self.len = self.cap then self.double_buf else self
  { grown with data := grown.data.take index ++ value :: grown.data.drop index }

/-- `Compact::is_still_compact` for `CompactVec` (lines 182-184):
`ptr.is_tagged() == EMBEDDED`. -/
def CompactVec.is_still_compact {T : Type} (self : CompactVec T) : Bool :=
  self.ptr.is_tagged == EMBEDDED

/-- `Compact::dynamic_size_bytes` for `CompactVec` (lines 186-188):
`cap * mem::size_of::<T>()`, parameterised by the element size. -/
def CompactVec.dynamic_size_bytes {T : Type} (sizeOfT : Nat) (self : CompactVec T) : Nat :=
  self.cap * sizeOfT

/-- `Compact::total_size_bytes` default method (lines 12-14):
`dynamic_size_bytes() + mem::size_of::<Self>()`, parameterised by the element
size and the fixed header size of the vector itself. -/
def CompactVec.total_size_bytes {T : Type} (sizeOfT sizeOfSelf : Nat)
    (self : CompactVec T) : Nat :=
  CompactVec.dynamic_size_bytes sizeOfT self + sizeOfSelf

/-- `Compact::compact_from` for `CompactVec` (lines 190-195): copy `len` and
`cap` from `source`, set the handle to `new_dynamic_part` tagged `EMBEDDED`,
then `copy_nonoverlapping` the first `len` live elements from `source`'s
storage into the destination. -/
def CompactVec.compact_from {T : Type} (self : CompactVec T) (source : CompactVec T)
    (new_dynamic_part : Int) : CompactVec T :=
  { ptr := self.ptr.set new_dynamic_part EMBEDDED,
    data := source.data,
    cap := source.cap }

/-- Byte count that `CompactVec::compact_from` writes into the destination
dynamic region: `copy_nonoverlapping(source.ptr.ptr(), self.ptr.mut_ptr(),
self.len)` copies `self.len = source.len` elements of `sizeOfT` bytes each
(line 194). -/
def CompactVec.compact_from_bytes_written {T : Type} (sizeOfT : Nat)
    (source : CompactVec T) : Nat :=
  source.len * sizeOfT

/-- Convenience: fold `push` over a list of values, modelling a sequence of
sequential `push` calls. -/
def CompactVec.pushAll {T : Type} (self : CompactVec T) (values : List T) : CompactVec T :=
  values.foldl CompactVec.push self

/-- The representation invariant `length <= capacity` from the spec (§3). -/
def CompactVec.LenLeCap {T : Type} (self : CompactVec T) : Prop :=
  self.len ≤ self.cap

instance {T : Type} (v : CompactVec T) : Decidable v.LenLeCap := by
  unfold CompactVec.LenLeCap; infer_instance

/-! Helper lemmas shared between the claim theorems. -/

/-- The grown-or-unchanged vector inside `push`/`insert` keeps the live data. -/
theorem CompactVec.double_buf_data {T : Type} (v : CompactVec T) :
    v.double_buf.data = v.data := rfl

/-- The capacity produced by `double_buf`. -/
theorem CompactVec.double_buf_cap {T : Type} (v : CompactVec T) :
    v.double_buf.cap = if v.cap = 0 then 1 else v.cap * 2 := rfl

/-- The live data after a `push` is the old live data with the value appended. -/
theorem CompactVec.push_data {T : Type} (v : CompactVec T) (x : T) :
    (v.push x).data = v.data ++ [x] := by
  unfold CompactVec.push
  by_cases h : v.len = v.cap <;> simp [h, CompactVec.double_buf_data]

/-- The length after a `push` grows by one. -/
theorem CompactVec.push_len {T : Type} (v : CompactVec T) (x : T) :
    (v.push x).len = v.len + 1 := by
  simp [CompactVec.len, CompactVec.push_data]

/-- C1. After `dst.compact_from(&src, buf)` the destination has the same
length, the same capacity, element-wise the same live contents as `src`, and
`is_still_compact()` returns `true` (the handle is set to `buf` tagged
`EMBEDDED`). -/
theorem compact_from_equivalence (T : Type) (dst src : CompactVec T) (buf : Int) :
    (dst.compact_from src buf).len = src.len ∧
    (dst.compact_from src buf).cap = src.cap ∧
    (dst.compact_from src buf).data = src.data ∧
    (dst.compact_from src buf).is_still_compact = true := by
  refine ⟨rfl, rfl, rfl, ?_⟩
  simp [CompactVec.compact_from, CompactVec.is_still_compact,
    TaggedRelativePointer.set, TaggedRelativePointer.is_tagged, EMBEDDED]

/-- C3 counterexample. Relocating the vector obtained by pushing `5, 7, 9`
onto `new()` (which has `len = 3`, `cap = 4`) yields a vector whose capacity
(`4`) differs from its length (`3`): `compact_from` copies `source.cap`
verbatim, so slack capacity survives relocation and `capacity == length`
fails. -/
theorem compact_from_cap_ne_len :
    ¬ (((CompactVec.new : CompactVec Nat).compact_from
          (CompactVec.pushAll CompactVec.new [5, 7, 9]) 100).cap =
        ((CompactVec.new : CompactVec Nat).compact_from
          (CompactVec.pushAll CompactVec.new [5, 7, 9]) 100).len) := by
  decide

/-- C3 amended. A vector freshly produced by `compact_from` is always in the
embedded state, and its capacity equals the **source's** capacity (slack is
preserved across relocation); its length likewise equals the source's, so
`capacity == length` holds only when the source already had no slack. -/
theorem compact_from_embedded_slack_preserved (T : Type) (dst src : CompactVec T)
    (buf : Int) :
    (dst.compact_from src buf).is_still_compact = true ∧
    (dst.compact_from src buf).cap = src.cap ∧
    (dst.compact_from src buf).len = src.len := by
  refine ⟨?_, rfl, rfl⟩
  simp [CompactVec.compact_from, CompactVec.is_still_compact,
    TaggedRelativePointer.set, TaggedRelativePointer.is_tagged, EMBEDDED]

/-- C6. Relocating a `CompactVec` writes exactly `len * size_of::<T>()` bytes
into the destination dynamic region; under the `length <= capacity` invariant
this never exceeds `dynamic_size_bytes() = cap * size_of::<T>()`, so every
byte offset written falls inside the dynamic region of a buffer of exactly
`total_size_bytes()` bytes (fixed header plus dynamic region). -/
theorem compact_from_writes_within_bounds (T : Type) (sizeOfT : Nat)
    (src : CompactVec T) (h : src.LenLeCap) :
    CompactVec.compact_from_bytes_written sizeOfT src ≤
      CompactVec.dynamic_size_bytes sizeOfT src ∧
    (∀ i, i < CompactVec.compact_from_bytes_written sizeOfT src →
      i < CompactVec.dynamic_size_bytes sizeOfT src) ∧
    (∀ sizeOfSelf, CompactVec.compact_from_bytes_written sizeOfT src + sizeOfSelf ≤
      CompactVec.total_size_bytes sizeOfT sizeOfSelf src) := by
  have hb : CompactVec.compact_from_bytes_written sizeOfT src ≤
      CompactVec.dynamic_size_bytes sizeOfT src :=
    Nat.mul_le_mul_right sizeOfT h
  refine ⟨hb, fun i hi => lt_of_lt_of_le hi hb, fun sizeOfSelf => ?_⟩
  exact Nat.add_le_add_right hb sizeOfSelf

/-- C6 witness: the vector built by pushing `5, 7, 9` (with `len = 3`,
`cap = 4`) satisfies the invariant and, at element size 8, writes 24 bytes
into a 32-byte dynamic region. -/
theorem compact_from_writes_within_bounds_witness :
    (CompactVec.pushAll (CompactVec.new : CompactVec Nat) [5, 7, 9]).LenLeCap ∧
    CompactVec.compact_from_bytes_written 8
        (CompactVec.pushAll (CompactVec.new : CompactVec Nat) [5, 7, 9]) ≤
      CompactVec.dynamic_size_bytes 8
        (CompactVec.pushAll (CompactVec.new : CompactVec Nat) [5, 7, 9]) :=
  ⟨by decide,
   (compact_from_writes_within_bounds Nat 8
      (CompactVec.pushAll CompactVec.new [5, 7, 9]) (by decide)).1⟩

/-- C7. `pop()` on an empty vector returns `None` and leaves the vector
unchanged; on a vector of length `k > 0` it returns `Some` of the element that
was at position `k - 1` (the last element), leaves length `k - 1`, keeps the
first `k - 1` elements unchanged, and touches neither capacity nor handle. -/
theorem pop_last_element (T : Type) (v : CompactVec T) :
    (v.len = 0 → v.pop = (none, v)) ∧
    (0 < v.len →
      v.pop.1 = v.data.getLast? ∧
      v.pop.2.len = v.len - 1 ∧
      (∀ i, i < v.len - 1 → v.pop.2.data[i]? = v.data[i]?) ∧
      v.pop.2.cap = v.cap ∧ v.pop.2.ptr = v.ptr) := by
  constructor
  · intro h0
    simp [CompactVec.pop, h0]
  · intro hpos
    have hne : ¬ v.data.length = 0 := by
      simpa [CompactVec.len] using Nat.pos_iff_ne_zero.mp hpos
    refine ⟨?_, ?_, ?_, ?_, ?_⟩
    · simp [CompactVec.pop, hne, List.getLast?_eq_getElem?, CompactVec.len]
    · simp [CompactVec.pop, hne, CompactVec.len, List.length_take]
    · intro i hi
      simp only [CompactVec.len] at hi
      simp only [CompactVec.pop, CompactVec.len, hne, if_false]
      exact List.getElem?_take_of_lt hi
    · simp [CompactVec.pop, CompactVec.len, hne]
    · simp [CompactVec.pop, CompactVec.len, hne]

/-- C7 witness: popping the vector with contents `[5, 7, 9]` returns `9` and
leaves length `2`. -/
theorem pop_last_element_witness :
    0 < (CompactVec.pushAll (CompactVec.new : CompactVec Nat) [5, 7, 9]).len ∧
    (CompactVec.pushAll (CompactVec.new : CompactVec Nat) [5, 7, 9]).pop.1 =
      (CompactVec.pushAll (CompactVec.new : CompactVec Nat) [5, 7, 9]).data.getLast? ∧
    (CompactVec.pushAll (CompactVec.new : CompactVec Nat) [5, 7, 9]).pop.2.len = 2 :=
  ⟨by decide,
   ((pop_last_element Nat (CompactVec.pushAll CompactVec.new [5, 7, 9])).2 (by decide)).1,
   ((pop_last_element Nat (CompactVec.pushAll CompactVec.new [5, 7, 9])).2 (by decide)).2.1⟩

/-- C9. `insert(v.len(), x)` is observationally equivalent to `push(x)`: the
two resulting vectors are equal as whole states — same live contents (hence
same length), same capacity, and the same handle (hence the same storage
state). -/
theorem insert_at_len_eq_push (T : Type) (v : CompactVec T) (x : T) :
    v.insert v.len x = v.push x := by
  unfold CompactVec.insert CompactVec.push
  have hgrow : (if v.len = v.cap then v.double_buf else v).data = v.data := by
    by_cases h : v.len = v.cap <;> simp [h, CompactVec.double_buf_data]
  dsimp only
  congr 1
  rw [hgrow]
  simp [CompactVec.len]

/-- C10. `with_capacity(n)` always sets its handle via `set(..., FREE)`, so it
is in the free state for every `n`, and `is_still_compact()` is `false` — in
particular for `n = 0`, where it is an empty, zero-capacity vector; `new()` is
also empty with zero capacity but uses an `EMBEDDED`-tagged null handle, so
`is_still_compact()` is `true`: the two empty zero-capacity vectors differ in
storage state. -/
theorem with_capacity_free_vs_new_embedded (T : Type) :
    (∀ n : Nat, (CompactVec.with_capacity n : CompactVec T).ptr.is_tagged = FREE ∧
      (CompactVec.with_capacity n : CompactVec T).is_still_compact = false) ∧
    (CompactVec.with_capacity 0 : CompactVec T).len = 0 ∧
    (CompactVec.with_capacity 0 : CompactVec T).cap = 0 ∧
    (CompactVec.new : CompactVec T).len = 0 ∧
    (CompactVec.new : CompactVec T).cap = 0 ∧
    (CompactVec.new : CompactVec T).is_still_compact = true := by
  refine ⟨fun n => ⟨rfl, ?_⟩, rfl, rfl, rfl, rfl, ?_⟩ <;>
    simp [CompactVec.with_capacity, CompactVec.new, CompactVec.is_still_compact,
      TaggedRelativePointer.set, TaggedRelativePointer.is_tagged,
      TaggedRelativePointer.null, FREE, EMBEDDED]

/-- Capacity of the vector produced by `push`. -/
theorem CompactVec.push_cap {T : Type} (v : CompactVec T) (x : T) :
    (v.push x).cap =
      if v.len = v.cap then (if v.cap = 0 then 1 else v.cap * 2) else v.cap := by
  unfold CompactVec.push CompactVec.double_buf
  by_cases h : v.len = v.cap <;> simp [h]

/-- Handle of the vector produced by `push`. -/
theorem CompactVec.push_ptr {T : Type} (v : CompactVec T) (x : T) :
    (v.push x).ptr =
      if v.len = v.cap then
        v.ptr.set (DefaultHeap.allocate (if v.cap = 0 then 1 else v.cap * 2)) FREE
      else v.ptr := by
  unfold CompactVec.push CompactVec.double_buf
  by_cases h : v.len = v.cap <;> simp [h]

/-- The live data after `insert` is the splice of the value at the index. -/
theorem CompactVec.insert_data {T : Type} (v : CompactVec T) (i : Nat) (x : T) :
    (v.insert i x).data = v.data.take i ++ x :: v.data.drop i := by
  unfold CompactVec.insert
  have hgrow : (if v.len = v.cap then v.double_buf else v).data = v.data := by
    by_cases h : v.len = v.cap <;> simp [h, CompactVec.double_buf_data]
  dsimp only
  rw [hgrow]

/-- Capacity of the vector produced by `insert` (same growth rule as `push`). -/
theorem CompactVec.insert_cap {T : Type} (v : CompactVec T) (i : Nat) (x : T) :
    (v.insert i x).cap =
      if v.len = v.cap then (if v.cap = 0 then 1 else v.cap * 2) else v.cap := by
  unfold CompactVec.insert CompactVec.double_buf
  by_cases h : v.len = v.cap <;> simp [h]

/-- The spec's "smallest power of two at least `n`" characterisation used by
the vector growth law. -/
def IsSmallestPow2Ge (c n : Nat) : Prop :=
  (∃ k, c = 2 ^ k) ∧ n ≤ c ∧ ∀ d, (∃ j, d = 2 ^ j) → n ≤ d → c ≤ d

/-- A power of two in the half-open window `[n, 2n)` is the smallest power of
two at least `n`. -/
theorem isSmallestPow2Ge_of_window (k c n : Nat) (hc : c = 2 ^ k) (h1 : n ≤ c)
    (h2 : c < 2 * n) : IsSmallestPow2Ge c n := by
  refine ⟨⟨k, hc⟩, h1, ?_⟩
  rintro d ⟨j, rfl⟩ hd
  subst hc
  have hwin : 2 ^ k < 2 ^ (j + 1) := by
    calc 2 ^ k < 2 * n := h2
    _ ≤ 2 * 2 ^ j := by omega
    _ = 2 ^ (j + 1) := by rw [Nat.pow_succ]; ring
  have hkj : k < j + 1 := (Nat.pow_lt_pow_iff_right (by norm_num)).mp hwin
  exact Nat.pow_le_pow_right (by norm_num) (by omega)

/-- Invariant carried through a sequence of `push` calls starting from
`new()`: the live data is exactly the pushed values; the capacity is `0`
while nothing was pushed, and once something was pushed the vector is `FREE`
with a power-of-two capacity in the window `[len, 2 * len)`. -/
def GrowthInv {T : Type} (v : CompactVec T) (vs : List T) : Prop :=
  v.data = vs ∧
  (vs = [] → v.cap = 0) ∧
  (vs ≠ [] → v.ptr.is_tagged = FREE ∧
    ∃ k, v.cap = 2 ^ k ∧ vs.length ≤ v.cap ∧ v.cap < 2 * vs.length)

/-- The invariant holds for `new()`. -/
theorem growthInv_new {T : Type} : GrowthInv (CompactVec.new : CompactVec T) [] := by
  refine ⟨rfl, fun _ => rfl, fun h => absurd rfl h⟩

/-- The invariant is preserved by one `push`. -/
theorem growthInv_push {T : Type} (v : CompactVec T) (vs : List T) (x : T)
    (h : GrowthInv v vs) : GrowthInv (v.push x) (vs ++ [x]) := by
  obtain ⟨hdata, hemp, hne⟩ := h
  have hlen : v.len = vs.length := by simp [CompactVec.len, hdata]
  refine ⟨by simp [CompactVec.push_data, hdata], by simp, fun _ => ?_⟩
  by_cases hvs : vs = []
  · -- vs = [], so v has len 0 and cap 0: push grows the buffer to capacity 1.
    have hcap0 : v.cap = 0 := hemp hvs
    have hl0 : v.len = 0 := by simp [hlen, hvs]
    constructor
    · rw [CompactVec.push_ptr]
      simp [hl0, hcap0, TaggedRelativePointer.set, TaggedRelativePointer.is_tagged]
    · refine ⟨0, ?_, ?_, ?_⟩ <;> rw [CompactVec.push_cap] <;> simp [hl0, hcap0, hvs]
  · obtain ⟨htag, k, hcap, h1, h2⟩ := hne hvs
    have hpos : 1 ≤ vs.length := by
      cases vs with
      | nil => exact absurd rfl hvs
      | cons a l => simp
    by_cases hfull : v.len = v.cap
    · -- Full buffer: `double_buf` doubles the capacity and tags it FREE.
      have hcapne : ¬ v.cap = 0 := by omega
      have hc : (v.push x).cap = v.cap * 2 := by
        rw [CompactVec.push_cap]; simp [hfull, hcapne]
      constructor
      · rw [CompactVec.push_ptr]
        simp [hfull, TaggedRelativePointer.set, TaggedRelativePointer.is_tagged]
      · refine ⟨k + 1, ?_, ?_, ?_⟩
        · rw [hc, hcap, Nat.pow_succ]
        · simp only [hc, List.length_append, List.length_cons, List.length_nil]
          omega
        · simp only [hc, List.length_append, List.length_cons, List.length_nil]
          omega
    · -- Spare capacity: the buffer and tag are unchanged.
      have hc : (v.push x).cap = v.cap := by
        rw [CompactVec.push_cap]; simp [hfull]
      constructor
      · rw [CompactVec.push_ptr]
        simp [hfull, htag]
      · refine ⟨k, by rw [hc, hcap], ?_, ?_⟩ <;>
          simp only [hc, List.length_append, List.length_cons, List.length_nil] <;>
          omega

/-- The invariant is carried through any sequence of `push` calls. -/
theorem growthInv_pushAll {T : Type} (ws : List T) :
    ∀ (v : CompactVec T) (vs : List T), GrowthInv v vs →
      GrowthInv (v.pushAll ws) (vs ++ ws) := by
  induction ws with
  | nil => intro v vs h; simpa [CompactVec.pushAll] using h
  | cons w ws ih =>
    intro v vs h
    have h' := growthInv_push v vs w h
    have := ih (v.push w) (vs ++ [w]) h'
    simpa [CompactVec.pushAll, List.foldl_cons] using this

/-- Growth law of the intended growth algorithm (spec §4.2/§8), proved over
the pure model: after `n` sequential `push` calls starting from `new()`, the
length is `n` and the live contents are exactly the pushed values in push
order; the capacity is `0` when `n = 0` and otherwise is the smallest power
of two at least `n` (the doubling sequence `0 -> 1 -> 2 -> 4 -> 8 ...`); and
every vector that has grown (`n >= 1`) is in the free state.  This is the
behaviour the source intends; the source itself frees each grown buffer at
`double_buf`'s return (see `push_from_new_writes_into_freed_buffer`), so
contents preservation is not a property of the code as written. -/
theorem push_growth_law (T : Type) (vs : List T) :
    (CompactVec.pushAll CompactVec.new vs).len = vs.length ∧
    (CompactVec.pushAll CompactVec.new vs).data = vs ∧
    (vs = [] → (CompactVec.pushAll CompactVec.new vs).cap = 0) ∧
    (vs ≠ [] →
      IsSmallestPow2Ge (CompactVec.pushAll CompactVec.new vs).cap vs.length ∧
      (CompactVec.pushAll CompactVec.new vs).ptr.is_tagged = FREE) := by
  have h := growthInv_pushAll vs (CompactVec.new : CompactVec T) [] growthInv_new
  simp only [List.nil_append] at h
  obtain ⟨hdata, hemp, hne⟩ := h
  refine ⟨by simp [CompactVec.len, hdata], hdata, hemp, fun hn => ?_⟩
  obtain ⟨htag, k, hcap, h1, h2⟩ := hne hn
  exact ⟨isSmallestPow2Ge_of_window k _ _ hcap h1 h2, htag⟩

/-- Concrete instance of the growth law of the intended algorithm: pushing
`5, 7, 9` onto `new()` gives length `3`, capacity `4` (the smallest power of
two at least `3`), contents `[5, 7, 9]`, free state. -/
theorem push_growth_law_witness :
    (CompactVec.pushAll (CompactVec.new : CompactVec Nat) [5, 7, 9]).len = 3 ∧
    (CompactVec.pushAll (CompactVec.new : CompactVec Nat) [5, 7, 9]).data = [5, 7, 9] ∧
    IsSmallestPow2Ge (CompactVec.pushAll (CompactVec.new : CompactVec Nat) [5, 7, 9]).cap 3 ∧
    (CompactVec.pushAll (CompactVec.new : CompactVec Nat) [5, 7, 9]).ptr.is_tagged = FREE :=
  ⟨(push_growth_law Nat [5, 7, 9]).1,
   (push_growth_law Nat [5, 7, 9]).2.1,
   ((push_growth_law Nat [5, 7, 9]).2.2.2 (by decide)).1,
   ((push_growth_law Nat [5, 7, 9]).2.2.2 (by decide)).2⟩

/-- C5. The invariant `length <= capacity` holds for `new()` and
`with_capacity(n)`, and is preserved by `push`, `pop`, `insert` (with
`index <= len`), `compact_from` (from a source satisfying it), and by
`from_backing` under its caller guarantee `len <= cap`. -/
theorem len_le_cap_invariant (T : Type) :
    (CompactVec.new : CompactVec T).LenLeCap ∧
    (∀ n : Nat, (CompactVec.with_capacity n : CompactVec T).LenLeCap) ∧
    (∀ (v : CompactVec T) (x : T), v.LenLeCap → (v.push x).LenLeCap) ∧
    (∀ v : CompactVec T, v.LenLeCap → (v.pop).2.LenLeCap) ∧
    (∀ (v : CompactVec T) (i : Nat) (x : T), i ≤ v.len → v.LenLeCap →
      (v.insert i x).LenLeCap) ∧
    (∀ (dst src : CompactVec T) (buf : Int), src.LenLeCap →
      (dst.compact_from src buf).LenLeCap) ∧
    (∀ (p : Int) (data : List T) (cap : Nat), data.length ≤ cap →
      (CompactVec.from_backing p data cap).LenLeCap) := by
  refine ⟨?_, ?_, ?_, ?_, ?_, ?_, ?_⟩
  · exact Nat.le_refl 0
  · intro n
    exact Nat.zero_le n
  · intro v x h
    unfold CompactVec.LenLeCap at h ⊢
    rw [CompactVec.push_len, CompactVec.push_cap]
    split
    · split <;> omega
    · omega
  · intro v h
    unfold CompactVec.LenLeCap at h ⊢
    unfold CompactVec.pop
    split
    · exact h
    · simp only [CompactVec.len, List.length_take]
      simp only [CompactVec.len] at h
      omega
  · intro v i x hi h
    unfold CompactVec.LenLeCap at h ⊢
    have hd : (v.insert i x).len = v.len + 1 := by
      simp only [CompactVec.len] at hi ⊢
      rw [CompactVec.insert_data]
      simp only [List.length_append, List.length_cons, List.length_take,
        List.length_drop]
      omega
    rw [hd, CompactVec.insert_cap]
    split
    · split <;> omega
    · omega
  · intro dst src buf h
    exact h
  · intro p data cap h
    exact h

/-- C5 witness: the invariant holds on concrete vectors produced by each
operation. -/
theorem len_le_cap_invariant_witness :
    (CompactVec.pushAll (CompactVec.new : CompactVec Nat) [5, 7, 9]).LenLeCap ∧
    ((CompactVec.pushAll (CompactVec.new : CompactVec Nat) [5, 7, 9]).push 11).LenLeCap ∧
    ((CompactVec.pushAll (CompactVec.new : CompactVec Nat) [5, 7, 9]).insert 1 6).LenLeCap ∧
    ((CompactVec.pushAll (CompactVec.new : CompactVec Nat) [5, 7, 9]).pop).2.LenLeCap ∧
    ((CompactVec.new : CompactVec Nat).compact_from
      (CompactVec.pushAll CompactVec.new [5, 7, 9]) 100).LenLeCap ∧
    (CompactVec.from_backing 64 [5, 7, 9] 3 : CompactVec Nat).LenLeCap :=
  ⟨by decide,
   (len_le_cap_invariant Nat).2.2.1 _ 11 (by decide),
   (len_le_cap_invariant Nat).2.2.2.2.1 _ 1 6 (by decide) (by decide),
   (len_le_cap_invariant Nat).2.2.2.1 _ (by decide),
   (len_le_cap_invariant Nat).2.2.2.2.2.1 _ _ 100 (by decide),
   (len_le_cap_invariant Nat).2.2.2.2.2.2 64 [5, 7, 9] 3 (by decide)⟩

/-- Splice law of the intended insert algorithm (spec §4.2/§8), proved over
the pure model: for a vector with contents `[v_0, ..., v_{n-1}]` and any
`index <= n`, `insert(index, x)` yields length `n + 1` and the spliced
contents `[v_0, ..., v_{index-1}, x, v_index, ..., v_{n-1}]`.  This is the
behaviour the source intends; on the growth path (`len == cap`) the source
frees the new buffer at `double_buf`'s return before the shift and write (see
`insert_full_writes_into_freed_buffer`), so the splice is not a property of
the code as written on that path. -/
theorem insert_splices_contents (T : Type) (v : CompactVec T) (i : Nat) (x : T)
    (hi : i ≤ v.len) :
    (v.insert i x).len = v.len + 1 ∧
    (v.insert i x).data = v.data.take i ++ x :: v.data.drop i ∧
    (∀ j, j < i → (v.insert i x).data[j]? = v.data[j]?) ∧
    (v.insert i x).data[i]? = some x ∧
    (∀ j, i ≤ j → j < v.len → (v.insert i x).data[j + 1]? = v.data[j]?) := by
  simp only [CompactVec.len] at hi
  have htlen : (v.data.take i).length = i := by
    simp [List.length_take]; omega
  refine ⟨?_, CompactVec.insert_data v i x, ?_, ?_, ?_⟩
  · simp only [CompactVec.len]
    rw [CompactVec.insert_data]
    simp only [List.length_append, List.length_cons, List.length_take,
      List.length_drop]
    omega
  · intro j hj
    rw [CompactVec.insert_data, List.getElem?_append_left (by rw [htlen]; exact hj)]
    exact List.getElem?_take_of_lt hj
  · rw [CompactVec.insert_data, List.getElem?_append_right (le_of_eq htlen)]
    simp [htlen]
  · intro j hij hjlen
    rw [CompactVec.insert_data, List.getElem?_append_right (by omega)]
    rw [htlen]
    have hidx : j + 1 - i = (j - i) + 1 := by omega
    rw [hidx, List.getElem?_cons_succ, List.getElem?_drop]
    congr 1
    omega

/-- Concrete instance of the intended splice law: inserting `6` at index `1`
of the vector with contents `[5, 7, 9]` gives `[5, 6, 7, 9]`, with the tail
shifted one slot right. -/
theorem insert_splices_contents_witness :
    1 ≤ (CompactVec.pushAll (CompactVec.new : CompactVec Nat) [5, 7, 9]).len ∧
    ((CompactVec.pushAll (CompactVec.new : CompactVec Nat) [5, 7, 9]).insert 1 6).data =
      (CompactVec.pushAll (CompactVec.new : CompactVec Nat) [5, 7, 9]).data.take 1 ++
        6 :: (CompactVec.pushAll (CompactVec.new : CompactVec Nat) [5, 7, 9]).data.drop 1 ∧
    ((CompactVec.pushAll (CompactVec.new : CompactVec Nat) [5, 7, 9]).insert 1 6).len = 4 :=
  ⟨by decide,
   (insert_splices_contents Nat (CompactVec.pushAll CompactVec.new [5, 7, 9]) 1 6
      (by decide)).2.1,
   (insert_splices_contents Nat (CompactVec.pushAll CompactVec.new [5, 7, 9]) 1 6
      (by decide)).1⟩

/-- A field of an aggregate type whose `Compact` implementation is produced by
`derive_compact!`: only the two observables the derived code reads from each
field (`is_still_compact()` and `dynamic_size_bytes()`, from the source's
`Compact` trait) matter for the composition laws. -/
structure CompactField where
  is_still_compact : Bool
  dynamic_size_bytes : Nat
deriving DecidableEq, Repr

/-- `derive_is_still_compact!` (lines 280-285): the macro expands to the
chain `self.f1.is_still_compact() && ... && self.fn.is_still_compact()` over
the declared fields; the recursion mirrors that chain (the `true` base makes
the fold total, and equals the bare chain on the macro's non-empty domain
since `b && true = b`). -/
def derive_is_still_compact : List CompactField → Bool
  | [] => true
  | f :: rest => f.is_still_compact && derive_is_still_compact rest

/-- `derive_dynamic_size_bytes!` (lines 287-292): the macro expands to
`self.f1.dynamic_size_bytes() + ... + self.fn.dynamic_size_bytes() + 0`. -/
def derive_dynamic_size_bytes : List CompactField → Nat
  | [] => 0
  | f :: rest => f.dynamic_size_bytes + derive_dynamic_size_bytes rest

/-- `derive_compact_from!` (lines 294-302): the macro expands, per field in
declaration order, to
`self.f.compact_from(&source.f, new_dynamic_part.offset(offset));
offset += source.f.dynamic_size_bytes() as isize;` starting from `offset = 0`.
This function returns the list of destination pointers passed to the fields'
`compact_from` calls, in declaration order, with the field sizes taken from
`source` (the list of source fields). -/
def derive_compact_from_dests (new_dynamic_part : Int) (offset : Int) :
    List CompactField → List Int
  | [] => []
  | f :: rest =>
    (new_dynamic_part + offset) ::
      derive_compact_from_dests new_dynamic_part
        (offset + (f.dynamic_size_bytes : Int)) rest

/-- Closed form for the destination pointer handed to the `i`-th field. -/
theorem derive_compact_from_dests_getElem (fields : List CompactField) :
    ∀ (offset : Int) (base : Int) (i : Nat), i < fields.length →
      (derive_compact_from_dests base offset fields)[i]? =
        some (base + offset +
          (((fields.take i).map CompactField.dynamic_size_bytes).sum : Int)) := by
  induction fields with
  | nil => intro offset base i hi; simp at hi
  | cons f rest ih =>
    intro offset base i hi
    cases i with
    | zero => simp [derive_compact_from_dests]
    | succ i =>
      have hi' : i < rest.length := by simpa using hi
      simp only [derive_compact_from_dests, List.getElem?_cons_succ]
      rw [ih (offset + (f.dynamic_size_bytes : Int)) base i hi']
      simp only [List.take_succ_cons, List.map_cons, List.sum_cons]
      congr 1
      push_cast
      ring

/-- C4. For an aggregate produced by `derive_compact!` over an ordered field
list: its `is_still_compact()` is the logical AND of the fields', its
`dynamic_size_bytes()` is the sum of the fields', and its `compact_from`
hands the `i`-th field a destination pointer equal to the base destination
advanced by the running sum of the dynamic sizes (computed on `source`) of
all preceding fields in declaration order. -/
theorem derive_compact_composition (fields : List CompactField) (base : Int) :
    derive_is_still_compact fields = fields.all CompactField.is_still_compact ∧
    derive_dynamic_size_bytes fields =
      (fields.map CompactField.dynamic_size_bytes).sum ∧
    (∀ i, i < fields.length →
      (derive_compact_from_dests base 0 fields)[i]? =
        some (base +
          (((fields.take i).map CompactField.dynamic_size_bytes).sum : Int))) := by
  refine ⟨?_, ?_, ?_⟩
  · induction fields with
    | nil => rfl
    | cons f rest ih => simp [derive_is_still_compact, ih]
  · induction fields with
    | nil => rfl
    | cons f rest ih => simp [derive_dynamic_size_bytes, ih]
  · intro i hi
    have h := derive_compact_from_dests_getElem fields 0 base i hi
    simpa using h

/-- C4 witness: for three fields of dynamic sizes `8, 4, 2` (the middle one
not embedded), the derived status is `false`, the derived size is `14`, and
the third field's destination is the base `100` advanced by `8 + 4 = 12`. -/
theorem derive_compact_composition_witness :
    derive_is_still_compact
        [⟨true, 8⟩, ⟨false, 4⟩, ⟨true, 2⟩] = false ∧
    derive_dynamic_size_bytes [⟨true, 8⟩, ⟨false, 4⟩, ⟨true, 2⟩] = 14 ∧
    (derive_compact_from_dests 100 0 [⟨true, 8⟩, ⟨false, 4⟩, ⟨true, 2⟩])[2]? =
      some 112 :=
  ⟨((derive_compact_composition [⟨true, 8⟩, ⟨false, 4⟩, ⟨true, 2⟩] 100).1).trans
      (by decide),
   ((derive_compact_composition [⟨true, 8⟩, ⟨false, 4⟩, ⟨true, 2⟩] 100).2.1).trans
      (by decide),
   ((derive_compact_composition [⟨true, 8⟩, ⟨false, 4⟩, ⟨true, 2⟩] 100).2.2 2
      (by decide)).trans (by decide)⟩

/-- Allocation-liveness state of the heap: a supply of fresh buffer addresses
and the set of currently live (allocated, not yet freed) buffer addresses.
Used to instrument the growth path of the source with the ownership events it
actually performs. -/
structure HeapModel where
  next : Int
  live : List Int
deriving DecidableEq, Repr

/-- A heap with no live allocations. -/
def HeapModel.init : HeapModel :=
  { next := 100, live := [] }

/-- Allocating a buffer returns a fresh address and marks it live (models both
`A::allocate` and the buffer owned by a `Vec::with_capacity`). -/
def HeapModel.allocate (h : HeapModel) (_count : Nat) : Int × HeapModel :=
  (h.next, { next := h.next + 1, live := h.next :: h.live })

/-- Deallocating a buffer removes its address from the live set (models both
`A::deallocate` and the deallocation a `Vec`'s drop performs). -/
def HeapModel.deallocate (h : HeapModel) (addr : Int) : HeapModel :=
  { h with live := h.live.erase addr }

/-- The buffer the vector's handle points at is a currently live heap
allocation.  Writing an element through the handle (`ptr::write` in `push`,
`ptr::copy`/`ptr::write` in `insert`) is sound only when this holds for
`FREE`-tagged storage. -/
def CompactVec.bufferLive {T : Type} (self : CompactVec T) (h : HeapModel) : Prop :=
  self.ptr.addr ∈ h.live

instance {T : Type} (v : CompactVec T) (h : HeapModel) : Decidable (v.bufferLive h) := by
  unfold CompactVec.bufferLive; infer_instance

/-- `CompactVec::double_buf` (lines 83-97) instrumented with the ownership
events of the source, in order: `let mut vec = Vec::<T>::with_capacity(new_cap)`
allocates the new buffer (owned by the temporary `vec`); `new_ptr =
vec.as_mut_ptr()` takes only its raw pointer; `copy_nonoverlapping` carries
the live contents over; `maybe_drop` (lines 74-81) deallocates the old buffer
only if the handle was tagged `FREE` (embedded storage is never freed); the
handle is repointed to `new_ptr` tagged `FREE` and `cap` becomes `new_cap`.
Finally — because the function contains no `mem::forget(vec)` — the temporary
`vec` is dropped when `double_buf` returns, deallocating the new buffer the
handle was just pointed at. -/
def CompactVec.double_buf_heap {T : Type} (self : CompactVec T) (h : HeapModel) :
    CompactVec T × HeapModel :=
  let new_cap := if self.cap = 0 then 1 else self.cap * 2
  let alloc := h.allocate new_cap
  let new_ptr := alloc.1
  let h1 := alloc.2
  let h2 := if self.ptr.is_tagged = FREE then h1.deallocate self.ptr.addr else h1
  let vec' : CompactVec T :=
    { ptr := self.ptr.set new_ptr FREE, data := self.data, cap := new_cap }
  (vec', h2.deallocate new_ptr)

/-- `CompactVec::push` (lines 99-109) threaded through the heap model: grow
via `double_buf` when `len == cap`, then write the value at slot `len`.  The
`ptr::write` happens after `double_buf` has returned, i.e. against the second
component's heap state. -/
def CompactVec.push_heap {T : Type} (self : CompactVec T) (value : T) (h : HeapModel) :
    CompactVec T × HeapModel :=
  let grown := if self.len = self.cap then self.double_buf_heap h else (self, h)
  ({ grown.1 with data := grown.1.data ++ [value] }, grown.2)

/-- `CompactVec::insert` (lines 122-136) threaded through the heap model: grow
via `double_buf` when `len == cap`, then shift and write.  The `ptr::copy` and
`ptr::write` happen after `double_buf` has returned. -/
def CompactVec.insert_heap {T : Type} (self : CompactVec T) (index : Nat) (value : T)
    (h : HeapModel) : CompactVec T × HeapModel :=
  let grown := if self.len = self.cap then self.double_buf_heap h else (self, h)
  ({ grown.1 with
      data := grown.1.data.take index ++ value :: grown.1.data.drop index },
   grown.2)

/-- C2. The very first `push` onto `new()` already writes its element into a
freed buffer: the growth goes through `double_buf`, whose temporary
`Vec::with_capacity(1)` owns the new buffer and is dropped (freeing it) when
`double_buf` returns, so at the moment of the element write the `FREE`-tagged
handle points at a buffer that is no longer live.  The spec's growth law
("no element ever lost or duplicated") is the clear intent — it holds of the
intended algorithm (`push_growth_law` above) — and the missing
`mem::forget` is the slip that invalidates it in the code. -/
theorem push_from_new_writes_into_freed_buffer :
    ((CompactVec.new : CompactVec Nat).push_heap 5 HeapModel.init).1.ptr.is_tagged
        = FREE ∧
    ¬ ((CompactVec.new : CompactVec Nat).push_heap 5 HeapModel.init).1.bufferLive
        ((CompactVec.new : CompactVec Nat).push_heap 5 HeapModel.init).2 := by
  decide

/-- C8. `insert` on a full vector ("growing first if len == cap") shifts and
writes into a freed buffer: for the embedded vector over caller memory
`from_backing(50, [5, 7], 2)` (full: `len == cap == 2`), `insert(1, 6)` grows
through `double_buf`, whose temporary `Vec::with_capacity(4)` frees the new
buffer at return, so the overlap-safe shift and the write at index `1` target
a buffer that is no longer live.  The claimed splice is the clear intent — it
holds of the intended algorithm (`insert_splices_contents` above) — and the
missing `mem::forget` is the slip that invalidates it on the growth path. -/
theorem insert_full_writes_into_freed_buffer :
    ((CompactVec.from_backing 50 [5, 7] 2 : CompactVec Nat).insert_heap 1 6
        HeapModel.init).1.ptr.is_tagged = FREE ∧
    ¬ ((CompactVec.from_backing 50 [5, 7] 2 : CompactVec Nat).insert_heap 1 6
          HeapModel.init).1.bufferLive
        ((CompactVec.from_backing 50 [5, 7] 2 : CompactVec Nat).insert_heap 1 6
          HeapModel.init).2 := by
  decide
